import Mathlib

/-!
Shallow embedding of the `trk` time-tracking core (`src/timesheet.rs`): the
`Event`/`Session`/`Timesheet` data model, the `push_event` state machine,
finalization, pause/working-time accounting and the duration formatter.

Machine integers (`u64`) are modelled as `Nat`; `u64` subtraction appears in
`pause_time`/`working_time` and is modelled as truncated `Nat` subtraction
(the underflow question itself is the subject of a separate claim).

The wall clock (`get_seconds()` in the source) is modelled by an explicit
`now : Nat` argument on every operation that reads it; the (at most two)
`get_seconds()` calls performed inside a single operation are modelled as
returning the same value, since they happen within the same call.

Operations that can terminate the process (`process::exit(0)`) or panic
(`Option::unwrap` on `None`) return an `Option`, with `none` marking the
aborted execution; their `some` results carry the updated state.
I/O effects (`println!`, `write_files`, git queries) are dropped.
-/

/-- `enum EventType` from the source. -/
inductive EventType where
  | Pause : EventType
  | Resume : EventType
  | Note : EventType
  | Commit : (hash : String) → EventType
deriving DecidableEq, Repr

/-- `struct Event` from the source. -/
structure Event where
  timestamp : Nat
  note : Option String
  ty : EventType
deriving DecidableEq, Repr

instance : Inhabited Event := ⟨⟨0, none, EventType.Note⟩⟩

/-- `struct Session` from the source.  The `HashSet<String>` of branch names
is modelled as a deduplicated list. -/
structure Session where
  start : Nat
  «end» : Nat
  running : Bool
  branches : List String
  events : List Event
deriving DecidableEq, Repr

/-- Helper: is this event type `Pause`? (the source pattern-matches inline). -/
def isPause : EventType → Bool
  | EventType.Pause => true
  | _ => false

/-- Helper: is this event type `Resume`? -/
def isResume : EventType → Bool
  | EventType.Resume => true
  | _ => false

namespace Session

/-- `Session::new`: an omitted timestamp is replaced by the clock value. -/
def new (now : Nat) (timestamp : Option Nat) : Session :=
  let t := match timestamp with
    | some timestamp => timestamp
    | none => now
  { start := t, «end» := t + 1, running := true, branches := [], events := [] }

/-- `Session::is_running`. -/
def is_running (s : Session) : Bool :=
  s.running

/-- `Session::is_paused`: true iff the last event exists and is a `Pause`. -/
def is_paused (s : Session) : Bool :=
  match s.events.getLast? with
  | none => false
  | some e => isPause e.ty

/-- `Session::update_end`: re-derive `end` as `last_event.timestamp + 1`,
keeping `end` unchanged when there are no events. -/
def update_end (s : Session) : Session :=
  match s.events.getLast? with
  | none => s
  | some e => { s with «end» := e.timestamp + 1 }

/-- The `is_valid_ts` check of `push_event`/`finalize`: an explicit timestamp
must be strictly greater than the last event's timestamp, or the session
start when there are no events. -/
def valid_ts (s : Session) (t : Nat) : Bool :=
  match s.events.getLast? with
  | none => s.start < t
  | some last_ev => last_ev.timestamp < t

/-- The source's recursive call `self.push_event(None, None, EventType::Resume)`
inside the `Commit` arm of `push_event`, written out as the code path that
call takes: the running check, then (timestamp omitted) `end` is set to the
clock value, then the `Resume` arm appends iff the session is paused.
`pushResumeNow_spec` below proves this agrees with `push_event` itself. -/
def pushResumeNow (now : Nat) (s : Session) : Session × Bool :=
  if !s.is_running then (s, false)
  else
    let s1 : Session := { s with «end» := now }
    if s1.is_paused then
      ({ s1 with events := s1.events ++ [⟨now, none, EventType.Resume⟩] }, true)
    else (s1, false)

/-- The `match type_of_event` body of `push_event`, operating on the state
`s1` left by the timestamp-resolution block and the resolved timestamp `ts`.
Returns `none` only for the one panicking path (`note.unwrap()` when merging
a `None` note into a pause that already carries a note).  The `Commit` arm
appends at the *clock* time and does not touch `end`. -/
def push_arm (now : Nat) (s1 : Session) (ts : Nat) (note : Option String) :
    EventType → Option (Session × Bool)
  | EventType.Pause =>
    if s1.is_paused then some (s1, false)
    else some ({ s1 with events := s1.events ++ [⟨ts, note, EventType.Pause⟩] }, true)
  | EventType.Resume =>
    if !s1.is_paused then some (s1, false)
    else some ({ s1 with events := s1.events ++ [⟨ts, note, EventType.Resume⟩] }, true)
  | EventType.Note =>
    match s1.events.getLast? with
    | some last_ev =>
      if isPause last_ev.ty then
        match last_ev.note, note with
        | some already, some n =>
          some ({ s1 with events :=
            s1.events.dropLast ++
              [⟨last_ev.timestamp, some (already ++ "<br>" ++ n), last_ev.ty⟩] }, true)
        | some _, none => none
        | none, _ =>
          some ({ s1 with events :=
            s1.events.dropLast ++ [⟨last_ev.timestamp, note, last_ev.ty⟩] }, true)
      else
        some ({ s1 with events := s1.events ++ [⟨ts, note, EventType.Note⟩] }, true)
    | none =>
      some ({ s1 with events := s1.events ++ [⟨ts, note, EventType.Note⟩] }, true)
  | EventType.Commit hash =>
    let s2 := if s1.is_paused then (pushResumeNow now s1).1 else s1
    some ({ s2 with events := s2.events ++ [⟨now, note, EventType.Commit hash⟩] }, true)

/-- `Session::push_event`: the running check, then the timestamp-resolution
block (an early `return false` on an invalid explicit timestamp, with `end`
updated *before* the per-kind checks otherwise), then the per-kind dispatch
`push_arm`. -/
def push_event (now : Nat) (s : Session) (timestamp : Option Nat)
    (note : Option String) (type_of_event : EventType) : Option (Session × Bool) :=
  if !s.is_running then some (s, false)
  else
    match timestamp with
    | none => push_arm now { s with «end» := now } now note type_of_event
    | some t =>
      if s.valid_ts t then push_arm now { s with «end» := t + 1 } t note type_of_event
      else some (s, false)

/-- The state a running session has inside `finalize` just before `running`
and `end` are set: when paused, the closing `Resume` has been pushed at the
finalize timestamp `r`.  The `Resume` push can neither panic nor be rejected
here; the `| none => s` fallback only satisfies totality. -/
def finalize_mid (now : Nat) (s : Session) (r : Nat) : Session :=
  if s.is_paused then
    match s.push_event now (some r) none EventType.Resume with
    | some (s', _) => s'
    | none => s
  else s

/-- `Session::finalize`.  `none` models `process::exit(0)` on an invalid
explicit timestamp (checked even when the session is already finalized). -/
def finalize (now : Nat) (s : Session) (timestamp : Option Nat) : Option Session :=
  match (match timestamp with
         | none => some now
         | some t => if s.valid_ts t then some t else none) with
  | none => none
  | some ts =>
    if s.is_running then
      some { finalize_mid now s ts with running := false, «end» := ts + 1 }
    else some s

/-- One step of the `Session::pause_time` loop: the state is the pair of the
mutable accumulators `(pause_time, last_pause_ts)`. -/
def pause_time_step (st : Nat × Nat) (event : Event) : Nat × Nat :=
  match event.ty with
  | EventType.Pause => (st.1, event.timestamp)
  | EventType.Resume => (st.1 + (event.timestamp - st.2), st.2)
  | _ => st

/-- `Session::pause_time`: the source's loop over the event log, as a fold;
both accumulators start at `0`. -/
def pause_time (s : Session) : Nat :=
  (s.events.foldl pause_time_step (0, 0)).1

/-- `Session::working_time`. -/
def working_time (s : Session) : Nat :=
  s.«end» - s.start - s.pause_time

/-- `Session::add_branch`: inserts into the branch set only while running. -/
def add_branch (s : Session) (name : String) : Session :=
  if s.is_running then
    { s with branches := if name ∈ s.branches then s.branches else s.branches ++ [name] }
  else s

end Session

/-- `struct Timesheet` from the source (persistence fields only). -/
structure Timesheet where
  start : Nat
  «end» : Nat
  user : String
  show_commits : Bool
  repo : String
  sessions : List Session
deriving DecidableEq, Repr

namespace Timesheet

/-- `Timesheet::get_last_session`. -/
def get_last_session (t : Timesheet) : Option Session :=
  t.sessions.getLast?

/-- `Timesheet::end_session`: refreshes the last session's `end` via
`update_end`, then finalizes it.  `none` propagates the `process::exit(0)`
of `finalize`; with no sessions this only logs.  (`write_files` is I/O and
dropped.) -/
def end_session (now : Nat) (t : Timesheet) (timestamp : Option Nat) : Option Timesheet :=
  match t.sessions.getLast? with
  | some session =>
    let session := session.update_end
    match session.finalize now timestamp with
    | some session' => some { t with sessions := t.sessions.dropLast ++ [session'] }
    | none => none
  | none => some t

end Timesheet

/-- `sec_to_hms_string`: the duration formatter, with the source's match
arms (evaluated in order) written as an if-chain; `0...4` and `56...59`
are the inclusive ranges of the Rust patterns. -/
def sec_to_hms_string (seconds : Nat) : String :=
  let hours := seconds / 3600
  let minutes := (seconds - hours * 3600) / 60
  let s := seconds - minutes * 60 - hours * 3600
  if hours = 0 ∧ minutes = 0 ∧ s = 1 then "1 second"
  else if hours = 0 ∧ minutes = 0 then toString s ++ " seconds"
  else if hours = 0 ∧ minutes = 1 then "1 minute"
  else if hours = 0 then toString minutes ++ " minutes"
  else if hours = 1 ∧ minutes ≤ 4 then "1 hour"
  else if minutes ≤ 4 then toString hours ++ " hours"
  else if 56 ≤ minutes ∧ minutes ≤ 59 then toString (hours + 1) ++ " hours"
  else toString hours ++ " hours and " ++ toString minutes ++ " minutes"

/-- The spec's duration-formatting table (§4.2), written from its words:
decompose into `hours = seconds div 3600`, `minutes = (seconds mod 3600) div 60`,
`remainder = seconds mod 60` and apply the eight rules in order. -/
def format_spec (seconds : Nat) : String :=
  let hours := seconds / 3600
  let minutes := seconds % 3600 / 60
  let remainder := seconds % 60
  if hours = 0 ∧ minutes = 0 ∧ remainder = 1 then "1 second"
  else if hours = 0 ∧ minutes = 0 ∧ remainder ≠ 1 then toString remainder ++ " seconds"
  else if hours = 0 ∧ minutes = 1 then "1 minute"
  else if hours = 0 ∧ minutes > 1 then toString minutes ++ " minutes"
  else if hours = 1 ∧ minutes ≤ 4 then "1 hour"
  else if hours > 1 ∧ minutes ≤ 4 then toString hours ++ " hours"
  else if 56 ≤ minutes ∧ minutes ≤ 59 then toString (hours + 1) ++ " hours"
  else toString hours ++ " hours and " ++ toString minutes ++ " minutes"

/-- The spec's description of pause-time accounting (§4.5), written from its
words: sum `resume.timestamp - matching_pause.timestamp` over every
`Pause`→`Resume` pair encountered in order, tracking the currently open
pause; an unterminated pause contributes nothing, and a `Resume` without an
open pause pairs with nothing. -/
def pairSum_step (st : Nat × Option Nat) (event : Event) : Nat × Option Nat :=
  match event.ty with
  | EventType.Pause => (st.1, some event.timestamp)
  | EventType.Resume =>
    match st.2 with
    | some p => (st.1 + (event.timestamp - p), none)
    | none => st
  | _ => st

/-- See `pairSum_step`: the running sum of closed pause intervals. -/
def pairSum (events : List Event) : Nat :=
  (events.foldl pairSum_step (0, none)).1

/-- Scan of an event list checking that every `Resume` is immediately
preceded by a `Pause`; `prevIsPause` records whether the (virtual) previous
event was a `Pause`. -/
def wpFrom (prevIsPause : Bool) : List Event → Bool
  | [] => true
  | e :: rest => (!isResume e.ty || prevIsPause) && wpFrom (isPause e.ty) rest

/-- An event log is well paired when no `Resume` appears without an
immediately preceding `Pause` (in particular it cannot start with one). -/
def wellPaired (events : List Event) : Bool :=
  wpFrom false events

/-- Whether the last event of the list is a `Pause`; `b` is the answer for
the empty list.  This is the state `wpFrom` threads through a scan. -/
def endState (b : Bool) : List Event → Bool
  | [] => b
  | e :: rest => endState (isPause e.ty) rest

/-- Strictly increasing timestamp order along the event log. -/
def strictInc : List Event → Bool
  | [] => true
  | [_] => true
  | a :: b :: rest => (decide (a.timestamp < b.timestamp)) && strictInc (b :: rest)

/-- The ordering/underflow property claimed for `pause_time`: every `Resume`
in the log has an earlier `Pause` whose timestamp is at most the `Resume`'s
timestamp. -/
def resumeCovered (l : List Event) : Prop :=
  ∀ i < l.length, isResume (l.getD i default).ty = true →
    ∃ j < i, isPause (l.getD j default).ty = true ∧
      (l.getD j default).timestamp ≤ (l.getD i default).timestamp

instance (l : List Event) : Decidable (resumeCovered l) := by
  unfold resumeCovered
  infer_instance

/-- An optional explicit timestamp argument passes the `is_valid_ts` check
(vacuously when omitted). -/
def tsOkP (s : Session) (timestamp : Option Nat) : Prop :=
  ∀ t, timestamp = some t → s.valid_ts t = true

/-- The timestamp `push_event` resolves for the appended event (for
non-`Commit` kinds): the explicit one, or the clock value. -/
def resolved_ts (now : Nat) (timestamp : Option Nat) : Nat :=
  timestamp.getD now

/-- Sessions reachable through the operations the `Timesheet` layer invokes
on sessions: creation, `push_event` (any arguments, any clock value, along
the non-aborting executions), `finalize`, `add_branch` and `update_end`. -/
inductive Reachable : Session → Prop where
  | new : ∀ now ts, Reachable (Session.new now ts)
  | push : ∀ s now ts note ty s' b, Reachable s →
      Session.push_event now s ts note ty = some (s', b) → Reachable s'
  | fin : ∀ s now ts s', Reachable s →
      Session.finalize now s ts = some s' → Reachable s'
  | branch : ∀ s name, Reachable s → Reachable (s.add_branch name)
  | upd : ∀ s, Reachable s → Reachable s.update_end

/-- The note stored on the open pause after merging an incoming note text,
following the `match pause.note` in the `Note` arm: joined with the `<br>`
separator when a note is already present, created otherwise. -/
def merge_note (old : Option String) (txt : String) : Option String :=
  match old with
  | some already => some (already ++ "<br>" ++ txt)
  | none => some txt

/-- A running session, paused since `t = 10`. -/
def pausedAt10 : Session :=
  ⟨0, 11, true, [], [⟨10, none, EventType.Pause⟩]⟩

/-- A fresh running session started at `t = 10` with no events. -/
def startedAt10 : Session :=
  ⟨10, 11, true, [], []⟩

/-- The spec's pause-accounting example: one `Pause` at `t = 100` closed by
one `Resume` at `t = 150`, and nothing else. -/
def pauseResumeExample : Session :=
  ⟨0, 151, true, [], [⟨100, none, EventType.Pause⟩, ⟨150, none, EventType.Resume⟩]⟩

/-- A reachable session holding a future-dated explicit `Pause` at `t = 1000`
closed by a clock-sourced `Resume` at `t = 101`. -/
def futurePauseSession : Session :=
  ⟨50, 101, true, [], [⟨1000, none, EventType.Pause⟩, ⟨101, none, EventType.Resume⟩]⟩

/-- A session with one `Note` event at `t = 10`, finalized at `t = 20`
(hence `end = 21`). -/
def finalizedSession : Session :=
  ⟨0, 21, false, [], [⟨10, none, EventType.Note⟩]⟩

/-- A timesheet whose only session is `finalizedSession`. -/
def finalizedSheet : Timesheet :=
  ⟨0, 1, "user", true, "", [finalizedSession]⟩

/-- A running session paused at `t = 10` whose open pause already carries
the note `"a"`. -/
def pausedNoted : Session :=
  ⟨0, 11, true, [], [⟨10, some "a", EventType.Pause⟩]⟩

/-- Updating `end` does not change pausedness. -/
@[simp]
theorem is_paused_set_end (s : Session) (x : Nat) :
    Session.is_paused { s with «end» := x } = s.is_paused := rfl

/-- Updating `end` does not change the running flag. -/
@[simp]
theorem is_running_set_end (s : Session) (x : Nat) :
    Session.is_running { s with «end» := x } = s.is_running := rfl

/-- The inlined `pushResumeNow` agrees with the recursive call
`push_event(None, None, Resume)` it stands for. -/
theorem pushResumeNow_spec (now : Nat) (s : Session) :
    Session.push_event now s none none EventType.Resume
      = some (Session.pushResumeNow now s) := by
  by_cases h : s.is_running
  · by_cases hp : s.is_paused <;>
      simp [Session.push_event, Session.push_arm, Session.pushResumeNow, h, hp]
  · simp [Session.push_event, Session.pushResumeNow, h]

/-- `endState` computes whether the last event is a `Pause`. -/
theorem endState_eq (l : List Event) : ∀ b, endState b l =
    (match l.getLast? with
     | none => b
     | some e => isPause e.ty) := by
  induction l with
  | nil => intro b; rfl
  | cons e rest ih =>
    intro b
    cases rest with
    | nil => simp [endState]
    | cons f rest2 =>
      rw [List.getLast?_cons_cons]
      exact ih (isPause e.ty)

/-- Pausedness of a session is the `endState` of its event log. -/
theorem is_paused_eq_endState (s : Session) :
    s.is_paused = endState false s.events := by
  rw [endState_eq]
  rfl

/-- Appending one event to a well-paired scan: the appended event must not be
a `Resume` unless the log currently ends in a `Pause`. -/
theorem wpFrom_append (e : Event) :
    ∀ (l : List Event) (b : Bool),
      wpFrom b (l ++ [e]) = (wpFrom b l && (!isResume e.ty || endState b l)) := by
  intro l
  induction l with
  | nil => intro b; simp [wpFrom, endState]
  | cons x rest ih =>
    intro b
    simp only [List.cons_append, List.append_eq, wpFrom, endState, ih (isPause x.ty),
      Bool.and_assoc]

/-- Appending one event to a strictly increasing log stays strictly
increasing iff the new timestamp beats the last one. -/
theorem strictInc_append (e : Event) :
    ∀ l : List Event,
      strictInc (l ++ [e]) = (strictInc l &&
        (match l.getLast? with
         | none => true
         | some x => decide (x.timestamp < e.timestamp))) := by
  intro l
  induction l with
  | nil => simp [strictInc]
  | cons a rest ih =>
    cases rest with
    | nil => simp [strictInc]
    | cons f rest2 =>
      rw [List.getLast?_cons_cons]
      simp only [List.cons_append] at ih
      simp only [List.cons_append, List.append_eq, strictInc, ih, Bool.and_assoc]

/-- Replacing the last event by one with the same type preserves
well-pairedness. -/
theorem wpFrom_set_last (l : List Event) (le e' : Event) (b : Bool)
    (hl : l.getLast? = some le) (hty : e'.ty = le.ty) :
    wpFrom b (l.dropLast ++ [e']) = wpFrom b l := by
  conv_rhs => rw [← List.dropLast_append_getLast? le hl]
  rw [wpFrom_append, wpFrom_append, hty]

/-- Replacing the last event by one with the same timestamp preserves strict
ordering. -/
theorem strictInc_set_last (l : List Event) (le e' : Event)
    (hl : l.getLast? = some le) (hts : e'.timestamp = le.timestamp) :
    strictInc (l.dropLast ++ [e']) = strictInc l := by
  conv_rhs => rw [← List.dropLast_append_getLast? le hl]
  rw [strictInc_append, strictInc_append, hts]

/-- Record-update projection: replacing `end` keeps `events`. -/
@[simp]
theorem events_set_end (s : Session) (x : Nat) :
    ({ s with «end» := x } : Session).events = s.events := rfl

/-- Record-update projection: replacing `end` keeps `running`. -/
@[simp]
theorem running_set_end (s : Session) (x : Nat) :
    ({ s with «end» := x } : Session).running = s.running := rfl

/-- Record-update projection: replacing `end` keeps `branches`. -/
@[simp]
theorem branches_set_end (s : Session) (x : Nat) :
    ({ s with «end» := x } : Session).branches = s.branches := rfl

/-- Record-update projection: replacing `end` keeps `start`. -/
@[simp]
theorem start_set_end (s : Session) (x : Nat) :
    ({ s with «end» := x } : Session).start = s.start := rfl

/-- Record-update projection: replacing `events` keeps `running`. -/
@[simp]
theorem running_set_events (s : Session) (l : List Event) :
    ({ s with events := l } : Session).running = s.running := rfl

/-- Record-update projection: replacing `events` keeps `branches`. -/
@[simp]
theorem branches_set_events (s : Session) (l : List Event) :
    ({ s with events := l } : Session).branches = s.branches := rfl

/-- Record-update projection: replacing `events` keeps `start`. -/
@[simp]
theorem start_set_events (s : Session) (l : List Event) :
    ({ s with events := l } : Session).start = s.start := rfl

/-- Record-update projection: replacing `events` keeps `end`. -/
@[simp]
theorem end_set_events (s : Session) (l : List Event) :
    ({ s with events := l } : Session).«end» = s.«end» := rfl

/-- Record-update projection: replacing `events` gives those events. -/
@[simp]
theorem events_set_events (s : Session) (l : List Event) :
    ({ s with events := l } : Session).events = l := rfl

/-- Updating `end` does not change the `is_valid_ts` check. -/
@[simp]
theorem valid_ts_set_end (s : Session) (x t : Nat) :
    Session.valid_ts { s with «end» := x } t = s.valid_ts t := rfl

/-- Unfolding equation for `pause_time_step`. -/
theorem pause_time_step_eq (st : Nat × Nat) (e : Event) :
    Session.pause_time_step st e =
      (match e.ty with
       | EventType.Pause => (st.1, e.timestamp)
       | EventType.Resume => (st.1 + (e.timestamp - st.2), st.2)
       | _ => st) := rfl

/-- Unfolding equation for `pairSum_step`. -/
theorem pairSum_step_eq (st : Nat × Option Nat) (e : Event) :
    pairSum_step st e =
      (match e.ty with
       | EventType.Pause => (st.1, some e.timestamp)
       | EventType.Resume =>
         match st.2 with
         | some p => (st.1 + (e.timestamp - p), none)
         | none => st
       | _ => st) := rfl

/-- The loop of `pause_time` and the spec's open-pause pairing scan agree on
any log in which every `Resume` immediately follows a `Pause`, for matching
intermediate states: the open pause (if any) carries the same timestamp as
the loop's `last_pause_ts`, and with no open pause the previous event was
not a `Pause`. -/
theorem fold_agree (l : List Event) :
    ∀ (acc p : Nat) (op : Option Nat) (prevB : Bool),
      wpFrom prevB l = true →
      (∀ q, op = some q → q = p) →
      (op = none → prevB = false) →
      (l.foldl Session.pause_time_step (acc, p)).1
        = (l.foldl pairSum_step (acc, op)).1 := by
  induction l with
  | nil => intro acc p op prevB _ _ _; rfl
  | cons e rest ih =>
    intro acc p op prevB hwp h2 h3
    simp only [List.foldl_cons]
    cases hty : e.ty with
    | Pause =>
      rw [wpFrom, Bool.and_eq_true, hty] at hwp
      obtain ⟨hhead, hrest⟩ := hwp
      rw [pause_time_step_eq, pairSum_step_eq, hty]
      exact ih acc e.timestamp (some e.timestamp) true hrest
        (fun q hq => (Option.some.inj hq).symm) (fun h => nomatch h)
    | Resume =>
      rw [wpFrom, Bool.and_eq_true, hty] at hwp
      obtain ⟨hhead, hrest⟩ := hwp
      have hprev : prevB = true := by simpa [isResume] using hhead
      cases op with
      | none => rw [h3 rfl] at hprev; exact absurd hprev (by simp)
      | some q =>
        obtain rfl : q = p := h2 q rfl
        rw [pause_time_step_eq, pairSum_step_eq, hty]
        exact ih _ q none false hrest (fun r hr => nomatch hr) (fun _ => rfl)
    | Note =>
      rw [wpFrom, Bool.and_eq_true, hty] at hwp
      obtain ⟨hhead, hrest⟩ := hwp
      rw [pause_time_step_eq, pairSum_step_eq, hty]
      exact ih acc p op false hrest h2 (fun _ => rfl)
    | Commit hash =>
      rw [wpFrom, Bool.and_eq_true, hty] at hwp
      obtain ⟨hhead, hrest⟩ := hwp
      rw [pause_time_step_eq, pairSum_step_eq, hty]
      exact ih acc p op false hrest h2 (fun _ => rfl)

/-- Injectivity helper for `some (session, flag)` results. -/
theorem some_pair_inj {s1 s' : Session} {b1 b : Bool}
    (h : (some (s1, b1) : Option (Session × Bool)) = some (s', b)) :
    s' = s1 ∧ b = b1 := by
  injection h with h2
  injection h2 with ha hb
  exact ⟨ha.symm, hb.symm⟩

/-- `push_event` on a finalized session: failure, no change. -/
theorem push_event_not_running (now : Nat) (s : Session) (ts : Option Nat)
    (note : Option String) (ty : EventType) (h : s.is_running = false) :
    Session.push_event now s ts note ty = some (s, false) := by
  simp [Session.push_event, h]

/-- `push_event` with an omitted timestamp: `end` is set to the clock value
and the per-kind dispatch runs. -/
theorem push_event_none_ts (now : Nat) (s : Session) (note : Option String)
    (ty : EventType) (h : s.is_running = true) :
    Session.push_event now s none note ty
      = Session.push_arm now { s with «end» := now } now note ty := by
  simp [Session.push_event, h]

/-- `push_event` with a valid explicit timestamp: `end` is set to `t + 1`
and the per-kind dispatch runs. -/
theorem push_event_some_valid (now t : Nat) (s : Session) (note : Option String)
    (ty : EventType) (h : s.is_running = true) (hv : s.valid_ts t = true) :
    Session.push_event now s (some t) note ty
      = Session.push_arm now { s with «end» := t + 1 } t note ty := by
  simp [Session.push_event, h, hv]

/-- `push_event` with an invalid explicit timestamp: failure, no change at
all (the early return precedes the `end` update). -/
theorem push_event_some_invalid (now t : Nat) (s : Session) (note : Option String)
    (ty : EventType) (h : s.is_running = true) (hv : s.valid_ts t = false) :
    Session.push_event now s (some t) note ty = some (s, false) := by
  simp [Session.push_event, h, hv]

/-- The `Pause` arm while paused: failure. -/
theorem push_arm_pause_paused (now : Nat) (s1 : Session) (ts : Nat)
    (note : Option String) (h : s1.is_paused = true) :
    Session.push_arm now s1 ts note EventType.Pause = some (s1, false) := by
  simp [Session.push_arm, h]

/-- The `Pause` arm while not paused: appends a `Pause` event. -/
theorem push_arm_pause_not (now : Nat) (s1 : Session) (ts : Nat)
    (note : Option String) (h : s1.is_paused = false) :
    Session.push_arm now s1 ts note EventType.Pause
      = some ({ s1 with events := s1.events ++ [⟨ts, note, EventType.Pause⟩] }, true) := by
  simp [Session.push_arm, h]

/-- The `Resume` arm while paused: appends a `Resume` event. -/
theorem push_arm_resume_paused (now : Nat) (s1 : Session) (ts : Nat)
    (note : Option String) (h : s1.is_paused = true) :
    Session.push_arm now s1 ts note EventType.Resume
      = some ({ s1 with events := s1.events ++ [⟨ts, note, EventType.Resume⟩] }, true) := by
  simp [Session.push_arm, h]

/-- The `Resume` arm while not paused: failure. -/
theorem push_arm_resume_not (now : Nat) (s1 : Session) (ts : Nat)
    (note : Option String) (h : s1.is_paused = false) :
    Session.push_arm now s1 ts note EventType.Resume = some (s1, false) := by
  simp [Session.push_arm, h]

/-- The `Note` arm while not paused: appends a standalone `Note` event. -/
theorem push_arm_note_not_paused (now : Nat) (s1 : Session) (ts : Nat)
    (note : Option String) (h : s1.is_paused = false) :
    Session.push_arm now s1 ts note EventType.Note
      = some ({ s1 with events := s1.events ++ [⟨ts, note, EventType.Note⟩] }, true) := by
  rw [Session.is_paused] at h
  rcases hgl : s1.events.getLast? with _ | last_ev
  · simp [Session.push_arm, hgl]
  · rw [hgl] at h
    replace h : isPause last_ev.ty = false := h
    simp [Session.push_arm, hgl, h]

/-- The `Note` arm while paused, on a pause already carrying a note: the new
text is joined to it with the separator; no event is appended. -/
theorem push_arm_note_merge (now : Nat) (s1 : Session) (ts : Nat)
    (last_ev : Event) (already n : String)
    (hgl : s1.events.getLast? = some last_ev) (hip : isPause last_ev.ty = true)
    (hn : last_ev.note = some already) :
    Session.push_arm now s1 ts (some n) EventType.Note
      = some ({ s1 with events := s1.events.dropLast ++
          [⟨last_ev.timestamp, some (already ++ "<br>" ++ n), last_ev.ty⟩] }, true) := by
  simp [Session.push_arm, hgl, hip, hn]

/-- The `Note` arm while paused, on a pause with no note yet: the incoming
note becomes the pause's note; no event is appended. -/
theorem push_arm_note_merge_fresh (now : Nat) (s1 : Session) (ts : Nat)
    (last_ev : Event) (note : Option String)
    (hgl : s1.events.getLast? = some last_ev) (hip : isPause last_ev.ty = true)
    (hn : last_ev.note = none) :
    Session.push_arm now s1 ts note EventType.Note
      = some ({ s1 with events := s1.events.dropLast ++
          [⟨last_ev.timestamp, note, last_ev.ty⟩] }, true) := by
  rcases note with _ | n <;> simp [Session.push_arm, hgl, hip, hn]

/-- The `Note` arm while paused, merging an absent note into a pause that
already has one: the `note.unwrap()` panic. -/
theorem push_arm_note_panic (now : Nat) (s1 : Session) (ts : Nat)
    (last_ev : Event) (already : String)
    (hgl : s1.events.getLast? = some last_ev) (hip : isPause last_ev.ty = true)
    (hn : last_ev.note = some already) :
    Session.push_arm now s1 ts none EventType.Note = none := by
  simp [Session.push_arm, hgl, hip, hn]

/-- The `Commit` arm while paused: a synthetic `Resume` at the clock time is
appended (resetting `end` to the clock time), then the `Commit` itself, also
at the clock time. -/
theorem push_arm_commit_paused (now : Nat) (s1 : Session) (ts : Nat)
    (note : Option String) (hash : String)
    (hrun1 : s1.is_running = true) (h : s1.is_paused = true) :
    Session.push_arm now s1 ts note (EventType.Commit hash)
      = some ({ s1 with
          «end» := now,
          events := (s1.events ++ [⟨now, none, EventType.Resume⟩])
            ++ [⟨now, note, EventType.Commit hash⟩] }, true) := by
  simp [Session.push_arm, Session.pushResumeNow, hrun1, h]

/-- The `Commit` arm while not paused: the `Commit` event is appended at the
clock time. -/
theorem push_arm_commit_not_paused (now : Nat) (s1 : Session) (ts : Nat)
    (note : Option String) (hash : String) (h : s1.is_paused = false) :
    Session.push_arm now s1 ts note (EventType.Commit hash)
      = some ({ s1 with
          events := s1.events ++ [⟨now, note, EventType.Commit hash⟩] }, true) := by
  simp [Session.push_arm, h]

/-- Appending anything that is not a `Resume` keeps a log well paired. -/
theorem wellPaired_append_not_resume (l : List Event) (e : Event)
    (h : wellPaired l = true) (he : isResume e.ty = false) :
    wellPaired (l ++ [e]) = true := by
  rw [wellPaired, wpFrom_append]
  rw [wellPaired] at h
  simp [h, he]

/-- Appending a `Resume` keeps a log well paired when the log currently ends
in a `Pause`. -/
theorem wellPaired_append_endPause (l : List Event) (e : Event)
    (h : wellPaired l = true) (he : endState false l = true) :
    wellPaired (l ++ [e]) = true := by
  rw [wellPaired, wpFrom_append]
  rw [wellPaired] at h
  simp [h, he]

/-- The per-kind dispatch preserves well-pairedness of the event log on every
non-aborting execution: a `Resume` (explicit or synthesized by the `Commit`
arm) is only ever appended when the log ends in a `Pause`. -/
theorem push_arm_preserves_wellPaired
    (now : Nat) (s1 : Session) (ts : Nat) (note : Option String)
    (ty : EventType) (s' : Session) (b : Bool)
    (hrun1 : s1.is_running = true)
    (hwp : wellPaired s1.events = true)
    (hp : Session.push_arm now s1 ts note ty = some (s', b)) :
    wellPaired s'.events = true := by
  cases ty with
  | Pause =>
    cases hpau : s1.is_paused with
    | true =>
      rw [push_arm_pause_paused now s1 ts note hpau] at hp
      obtain ⟨rfl, rfl⟩ := some_pair_inj hp
      exact hwp
    | false =>
      rw [push_arm_pause_not now s1 ts note hpau] at hp
      obtain ⟨rfl, rfl⟩ := some_pair_inj hp
      rw [events_set_events]
      exact wellPaired_append_not_resume _ _ hwp rfl
  | Resume =>
    cases hpau : s1.is_paused with
    | true =>
      rw [push_arm_resume_paused now s1 ts note hpau] at hp
      obtain ⟨rfl, rfl⟩ := some_pair_inj hp
      rw [events_set_events]
      refine wellPaired_append_endPause _ _ hwp ?_
      rw [← is_paused_eq_endState]
      exact hpau
    | false =>
      rw [push_arm_resume_not now s1 ts note hpau] at hp
      obtain ⟨rfl, rfl⟩ := some_pair_inj hp
      exact hwp
  | Note =>
    cases hpau : s1.is_paused with
    | false =>
      rw [push_arm_note_not_paused now s1 ts note hpau] at hp
      obtain ⟨rfl, rfl⟩ := some_pair_inj hp
      rw [events_set_events]
      exact wellPaired_append_not_resume _ _ hwp rfl
    | true =>
      rw [Session.is_paused] at hpau
      rcases hgl : s1.events.getLast? with _ | last_ev
      · rw [hgl] at hpau
        simp at hpau
      · rw [hgl] at hpau
        replace hpau : isPause last_ev.ty = true := hpau
        rcases hn : last_ev.note with _ | already
        · rw [push_arm_note_merge_fresh now s1 ts last_ev note hgl hpau hn] at hp
          obtain ⟨rfl, rfl⟩ := some_pair_inj hp
          rw [events_set_events, wellPaired,
            wpFrom_set_last s1.events last_ev ⟨last_ev.timestamp, note, last_ev.ty⟩
              false hgl rfl]
          exact hwp
        · cases note with
          | none =>
            rw [push_arm_note_panic now s1 ts last_ev already hgl hpau hn] at hp
            exact Option.noConfusion hp
          | some n =>
            rw [push_arm_note_merge now s1 ts last_ev already n hgl hpau hn] at hp
            obtain ⟨rfl, rfl⟩ := some_pair_inj hp
            rw [events_set_events, wellPaired,
              wpFrom_set_last s1.events last_ev
                ⟨last_ev.timestamp, some (already ++ "<br>" ++ n), last_ev.ty⟩
                false hgl rfl]
            exact hwp
  | Commit hash =>
    cases hpau : s1.is_paused with
    | true =>
      rw [push_arm_commit_paused now s1 ts note hash hrun1 hpau] at hp
      obtain ⟨rfl, rfl⟩ := some_pair_inj hp
      show wellPaired ((s1.events ++ [⟨now, none, EventType.Resume⟩])
        ++ [⟨now, note, EventType.Commit hash⟩]) = true
      refine wellPaired_append_not_resume _ _ ?_ rfl
      refine wellPaired_append_endPause _ _ hwp ?_
      rw [← is_paused_eq_endState]
      exact hpau
    | false =>
      rw [push_arm_commit_not_paused now s1 ts note hash hpau] at hp
      obtain ⟨rfl, rfl⟩ := some_pair_inj hp
      rw [events_set_events]
      exact wellPaired_append_not_resume _ _ hwp rfl

/-- `push_event` preserves well-pairedness of the event log. -/
theorem push_event_preserves_wellPaired
    (s : Session) (now : Nat) (ts : Option Nat) (note : Option String)
    (ty : EventType) (s' : Session) (b : Bool)
    (hwp : wellPaired s.events = true)
    (hp : Session.push_event now s ts note ty = some (s', b)) :
    wellPaired s'.events = true := by
  cases hrun : s.is_running with
  | false =>
    rw [push_event_not_running now s ts note ty hrun] at hp
    obtain ⟨rfl, rfl⟩ := some_pair_inj hp
    exact hwp
  | true =>
    rcases ts with _ | t
    · rw [push_event_none_ts now s note ty hrun] at hp
      exact push_arm_preserves_wellPaired now _ now note ty s' b
        (by rw [is_running_set_end]; exact hrun)
        (by rw [events_set_end]; exact hwp) hp
    · cases hv : s.valid_ts t with
      | true =>
        rw [push_event_some_valid now t s note ty hrun hv] at hp
        exact push_arm_preserves_wellPaired now _ t note ty s' b
          (by rw [is_running_set_end]; exact hrun)
          (by rw [events_set_end]; exact hwp) hp
      | false =>
        rw [push_event_some_invalid now t s note ty hrun hv] at hp
        obtain ⟨rfl, rfl⟩ := some_pair_inj hp
        exact hwp

/-- `finalize` with an invalid explicit timestamp terminates the process,
whatever the running state. -/
theorem finalize_some_invalid (now t : Nat) (s : Session)
    (hv : s.valid_ts t = false) :
    Session.finalize now s (some t) = none := by
  simp [Session.finalize, hv]

/-- `finalize` with no explicit timestamp on a finalized session: no-op. -/
theorem finalize_not_running_none (now : Nat) (s : Session)
    (h : s.is_running = false) :
    Session.finalize now s none = some s := by
  simp [Session.finalize, h]

/-- `finalize` with a valid explicit timestamp on a finalized session:
no-op. -/
theorem finalize_not_running_some (now t : Nat) (s : Session)
    (h : s.is_running = false) (hv : s.valid_ts t = true) :
    Session.finalize now s (some t) = some s := by
  simp [Session.finalize, h, hv]

/-- `finalize` with no explicit timestamp on a running session: close at the
clock time. -/
theorem finalize_running_none (now : Nat) (s : Session)
    (h : s.is_running = true) :
    Session.finalize now s none
      = some { Session.finalize_mid now s now with
          running := false, «end» := now + 1 } := by
  simp [Session.finalize, h]

/-- `finalize` with a valid explicit timestamp on a running session: close at
that timestamp. -/
theorem finalize_running_some (now t : Nat) (s : Session)
    (h : s.is_running = true) (hv : s.valid_ts t = true) :
    Session.finalize now s (some t)
      = some { Session.finalize_mid now s t with
          running := false, «end» := t + 1 } := by
  simp [Session.finalize, h, hv]

/-- The closing-`Resume` stage of `finalize` keeps the log well paired. -/
theorem finalize_mid_preserves_wellPaired (now : Nat) (s : Session) (r : Nat)
    (hwp : wellPaired s.events = true) :
    wellPaired (Session.finalize_mid now s r).events = true := by
  rw [Session.finalize_mid]
  by_cases hpau : s.is_paused
  · rw [if_pos hpau]
    rcases hpe : s.push_event now (some r) none EventType.Resume with _ | ⟨s2, b2⟩
    · exact hwp
    · exact push_event_preserves_wellPaired s now (some r) none EventType.Resume
        s2 b2 hwp hpe
  · rw [if_neg hpau]
    exact hwp

/-- `finalize` keeps the log well paired. -/
theorem finalize_preserves_wellPaired (s : Session) (now : Nat)
    (ts : Option Nat) (s' : Session)
    (hwp : wellPaired s.events = true)
    (hf : Session.finalize now s ts = some s') :
    wellPaired s'.events = true := by
  rcases ts with _ | t
  · cases hrun : s.is_running with
    | false =>
      rw [finalize_not_running_none now s hrun] at hf
      obtain rfl := Option.some.inj hf
      exact hwp
    | true =>
      rw [finalize_running_none now s hrun] at hf
      obtain rfl := Option.some.inj hf
      exact finalize_mid_preserves_wellPaired now s now hwp
  · cases hv : s.valid_ts t with
    | false =>
      rw [finalize_some_invalid now t s hv] at hf
      exact Option.noConfusion hf
    | true =>
      cases hrun : s.is_running with
      | false =>
        rw [finalize_not_running_some now t s hrun hv] at hf
        obtain rfl := Option.some.inj hf
        exact hwp
      | true =>
        rw [finalize_running_some now t s hrun hv] at hf
        obtain rfl := Option.some.inj hf
        exact finalize_mid_preserves_wellPaired now s t hwp

/-- `add_branch` never touches the event log. -/
theorem events_add_branch (s : Session) (name : String) :
    (s.add_branch name).events = s.events := by
  rw [Session.add_branch]
  split <;> rfl

/-- `update_end` never touches the event log. -/
theorem events_update_end (s : Session) :
    s.update_end.events = s.events := by
  rcases hgl : s.events.getLast? with _ | e <;> simp [Session.update_end, hgl]

/-- Every session reachable through the public operations has a well-paired
event log: each `Resume` is immediately preceded by a `Pause`. -/
theorem reachable_wellPaired (s : Session) (h : Reachable s) :
    wellPaired s.events = true := by
  induction h with
  | new now ts => cases ts <;> rfl
  | push s now ts note ty s' b hr hp ih =>
    exact push_event_preserves_wellPaired s now ts note ty s' b ih hp
  | fin s now ts s' hr hp ih =>
    exact finalize_preserves_wellPaired s now ts s' ih hp
  | branch s name hr ih =>
    rw [events_add_branch]
    exact ih
  | upd s hr ih =>
    rw [events_update_end]
    exact ih

/-- Replacing the last element of a nonempty list keeps its length. -/
theorem length_dropLast_concat {α : Type} (l : List α) (x : α) (h : l ≠ []) :
    (l.dropLast ++ [x]).length = l.length := by
  rw [List.length_append, List.length_dropLast]
  have := List.length_pos.2 h
  simp
  omega

/-- A passing `is_valid_ts` check bounds the last event's timestamp. -/
theorem valid_ts_lt (s : Session) (t : Nat) (h : s.valid_ts t = true) :
    ∀ le, s.events.getLast? = some le → le.timestamp < t := by
  intro le hle
  rw [Session.valid_ts, hle] at h
  exact of_decide_eq_true h

/-- Appending an event whose timestamp beats the last one keeps the log
strictly increasing. -/
theorem strictInc_append_of (l : List Event) (e : Event)
    (hs : strictInc l = true)
    (h : ∀ le, l.getLast? = some le → le.timestamp < e.timestamp) :
    strictInc (l ++ [e]) = true := by
  rw [strictInc_append, Bool.and_eq_true]
  refine ⟨hs, ?_⟩
  rcases hgl : l.getLast? with _ | le
  · rfl
  · exact decide_eq_true (h le hgl)

/-- The non-`Commit` arms of `push_event` never change `end`. -/
theorem push_arm_end_non_commit (now : Nat) (s1 : Session) (ts : Nat)
    (note : Option String) (ty : EventType) (s' : Session) (b : Bool)
    (hnc : ∀ h, ty ≠ EventType.Commit h)
    (hp : Session.push_arm now s1 ts note ty = some (s', b)) :
    s'.«end» = s1.«end» := by
  cases ty with
  | Pause =>
    cases hpau : s1.is_paused with
    | true =>
      rw [push_arm_pause_paused now s1 ts note hpau] at hp
      obtain ⟨rfl, rfl⟩ := some_pair_inj hp
      rfl
    | false =>
      rw [push_arm_pause_not now s1 ts note hpau] at hp
      obtain ⟨rfl, rfl⟩ := some_pair_inj hp
      rfl
  | Resume =>
    cases hpau : s1.is_paused with
    | true =>
      rw [push_arm_resume_paused now s1 ts note hpau] at hp
      obtain ⟨rfl, rfl⟩ := some_pair_inj hp
      rfl
    | false =>
      rw [push_arm_resume_not now s1 ts note hpau] at hp
      obtain ⟨rfl, rfl⟩ := some_pair_inj hp
      rfl
  | Note =>
    cases hpau : s1.is_paused with
    | false =>
      rw [push_arm_note_not_paused now s1 ts note hpau] at hp
      obtain ⟨rfl, rfl⟩ := some_pair_inj hp
      rfl
    | true =>
      rw [Session.is_paused] at hpau
      rcases hgl : s1.events.getLast? with _ | last_ev
      · rw [hgl] at hpau
        simp at hpau
      · rw [hgl] at hpau
        replace hpau : isPause last_ev.ty = true := hpau
        rcases hn : last_ev.note with _ | already
        · rw [push_arm_note_merge_fresh now s1 ts last_ev note hgl hpau hn] at hp
          obtain ⟨rfl, rfl⟩ := some_pair_inj hp
          rfl
        · cases note with
          | none =>
            rw [push_arm_note_panic now s1 ts last_ev already hgl hpau hn] at hp
            exact Option.noConfusion hp
          | some n =>
            rw [push_arm_note_merge now s1 ts last_ev already n hgl hpau hn] at hp
            obtain ⟨rfl, rfl⟩ := some_pair_inj hp
            rfl
  | Commit hash => exact absurd rfl (hnc hash)

/-- The per-kind dispatch keeps timestamps strictly increasing, provided the
resolved timestamp beats the last event (`h1`) and, for `Commit`, the clock
value does too while the session is not paused (`h2`). -/
theorem push_arm_preserves_strictInc
    (now : Nat) (s1 : Session) (ts : Nat) (note : Option String)
    (ty : EventType) (s' : Session) (b : Bool)
    (hs : strictInc s1.events = true)
    (h1 : ∀ le, s1.events.getLast? = some le → le.timestamp < ts)
    (h2 : ∀ h, ty = EventType.Commit h →
      (∀ le, s1.events.getLast? = some le → le.timestamp < now) ∧
        s1.is_paused = false)
    (hp : Session.push_arm now s1 ts note ty = some (s', b)) :
    strictInc s'.events = true := by
  cases ty with
  | Pause =>
    cases hpau : s1.is_paused with
    | true =>
      rw [push_arm_pause_paused now s1 ts note hpau] at hp
      obtain ⟨rfl, rfl⟩ := some_pair_inj hp
      exact hs
    | false =>
      rw [push_arm_pause_not now s1 ts note hpau] at hp
      obtain ⟨rfl, rfl⟩ := some_pair_inj hp
      rw [events_set_events]
      exact strictInc_append_of _ _ hs h1
  | Resume =>
    cases hpau : s1.is_paused with
    | true =>
      rw [push_arm_resume_paused now s1 ts note hpau] at hp
      obtain ⟨rfl, rfl⟩ := some_pair_inj hp
      rw [events_set_events]
      exact strictInc_append_of _ _ hs h1
    | false =>
      rw [push_arm_resume_not now s1 ts note hpau] at hp
      obtain ⟨rfl, rfl⟩ := some_pair_inj hp
      exact hs
  | Note =>
    cases hpau : s1.is_paused with
    | false =>
      rw [push_arm_note_not_paused now s1 ts note hpau] at hp
      obtain ⟨rfl, rfl⟩ := some_pair_inj hp
      rw [events_set_events]
      exact strictInc_append_of _ _ hs h1
    | true =>
      rw [Session.is_paused] at hpau
      rcases hgl : s1.events.getLast? with _ | last_ev
      · rw [hgl] at hpau
        simp at hpau
      · rw [hgl] at hpau
        replace hpau : isPause last_ev.ty = true := hpau
        rcases hn : last_ev.note with _ | already
        · rw [push_arm_note_merge_fresh now s1 ts last_ev note hgl hpau hn] at hp
          obtain ⟨rfl, rfl⟩ := some_pair_inj hp
          rw [events_set_events,
            strictInc_set_last s1.events last_ev ⟨last_ev.timestamp, note, last_ev.ty⟩
              hgl rfl]
          exact hs
        · cases note with
          | none =>
            rw [push_arm_note_panic now s1 ts last_ev already hgl hpau hn] at hp
            exact Option.noConfusion hp
          | some n =>
            rw [push_arm_note_merge now s1 ts last_ev already n hgl hpau hn] at hp
            obtain ⟨rfl, rfl⟩ := some_pair_inj hp
            rw [events_set_events,
              strictInc_set_last s1.events last_ev
                ⟨last_ev.timestamp, some (already ++ "<br>" ++ n), last_ev.ty⟩
                hgl rfl]
            exact hs
  | Commit hash =>
    obtain ⟨hnow, hpau⟩ := h2 hash rfl
    rw [push_arm_commit_not_paused now s1 ts note hash hpau] at hp
    obtain ⟨rfl, rfl⟩ := some_pair_inj hp
    rw [events_set_events]
    exact strictInc_append_of _ _ hs hnow

/-- In a well-paired scan, a `Resume` at position `i` is immediately preceded
by a `Pause` (or, at position `0`, the virtual previous event was one). -/
theorem wpFrom_resume_pred (l : List Event) :
    ∀ b, wpFrom b l = true → ∀ i, i < l.length →
      isResume ((l.getD i default).ty) = true →
      (i = 0 ∧ b = true) ∨
        (0 < i ∧ isPause ((l.getD (i - 1) default).ty) = true) := by
  induction l with
  | nil =>
    intro b _ i hi _
    exact absurd hi (by simp)
  | cons e rest ih =>
    intro b hwp i hi hres
    rw [wpFrom, Bool.and_eq_true] at hwp
    obtain ⟨hhead, hrest⟩ := hwp
    cases i with
    | zero =>
      left
      refine ⟨rfl, ?_⟩
      rw [List.getD_cons_zero] at hres
      rw [hres] at hhead
      simpa using hhead
    | succ j =>
      right
      refine ⟨Nat.succ_pos j, ?_⟩
      rw [List.getD_cons_succ] at hres
      have hj : j < rest.length := by
        simpa using Nat.lt_of_succ_lt_succ hi
      rcases ih (isPause e.ty) hrest j hj hres with ⟨hj0, hb⟩ | ⟨hjpos, hpj⟩
      · subst hj0
        exact hb
      · obtain ⟨k, rfl⟩ : ∃ k, j = k + 1 := ⟨j - 1, by omega⟩
        exact hpj

/-- C4 counterexample: the sixth spec vector fails — the formatter's final
arm pluralizes unconditionally, so 5400 s renders as "1 hours and
30 minutes", not "1 hour and 30 minutes". -/
theorem C4_counterexample :
    sec_to_hms_string (3600 + 30 * 60) = "1 hours and 30 minutes" ∧
    ¬ sec_to_hms_string (3600 + 30 * 60) = "1 hour and 30 minutes" := by
  decide

/-- C4 amended: the first five spec vectors hold as stated; the sixth
renders with the formatter's unconditional plural, "1 hours and
30 minutes". -/
theorem C4_format_vectors :
    sec_to_hms_string 1 = "1 second" ∧
    sec_to_hms_string 61 = "1 minute" ∧
    sec_to_hms_string 3600 = "1 hour" ∧
    sec_to_hms_string (3600 * 2 + 240) = "2 hours" ∧
    sec_to_hms_string (3600 + 58 * 60) = "2 hours" ∧
    sec_to_hms_string (3600 + 30 * 60) = "1 hours and 30 minutes" := by
  decide

/-- C9: on every non-negative second count, the formatter agrees with the
spec's decomposition (`hours = seconds div 3600`,
`minutes = (seconds mod 3600) div 60`, `remainder = seconds mod 60`) and its
eight banding rules applied in order. -/
theorem C9_formatter_refines_spec (n : Nat) :
    sec_to_hms_string n = format_spec n := by
  have h1 : n - n / 3600 * 3600 = n % 3600 := by omega
  have h2 : n - n % 3600 / 60 * 60 - n / 3600 * 3600 = n % 60 := by omega
  simp only [sec_to_hms_string, format_spec, h1, h2]
  split_ifs <;> first | rfl | omega

/-- C3: on every session reachable through the public operations,
`pause_time` equals the spec's sum of `resume.timestamp - pause.timestamp`
over the `Pause`→`Resume` pairs in order (an open trailing pause contributes
nothing), `working_time` is `end - start - pause_time`, and the spec's
example (one `Pause` at 100, one `Resume` at 150) yields `50`. -/
theorem C3_pause_time_pairs (s : Session) (h : Reachable s) :
    s.pause_time = pairSum s.events ∧
    s.working_time = s.«end» - s.start - s.pause_time ∧
    pauseResumeExample.pause_time = 50 := by
  refine ⟨?_, rfl, by decide⟩
  exact fold_agree s.events 0 0 none false (reachable_wellPaired s h)
    (fun q hq => nomatch hq) (fun _ => rfl)

/-- Witness for C3 at the spec's concrete example session. -/
theorem C3_pause_time_pairs_witness :
    Reachable pauseResumeExample ∧
    (pauseResumeExample.pause_time = pairSum pauseResumeExample.events ∧
     pauseResumeExample.working_time
       = pauseResumeExample.«end» - pauseResumeExample.start
         - pauseResumeExample.pause_time ∧
     pauseResumeExample.pause_time = 50) := by
  have h0 : Reachable (⟨0, 1, true, [], []⟩ : Session) := Reachable.new 5 (some 0)
  have h1 : Reachable (⟨0, 101, true, [], [⟨100, none, EventType.Pause⟩]⟩ : Session) :=
    Reachable.push _ 100 (some 100) none EventType.Pause _ true h0 (by decide)
  have hr : Reachable pauseResumeExample :=
    Reachable.push _ 150 (some 150) none EventType.Resume _ true h1 (by decide)
  exact ⟨hr, C3_pause_time_pairs pauseResumeExample hr⟩

/-- C10 counterexample: a session reachable through the public operations
(explicit future-dated `Pause` at 1000, then a clock-sourced `Resume` at
101) in which the `Resume` is *not* preceded by any `Pause` with a smaller
or equal timestamp, so the claimed no-underflow ordering fails. -/
theorem C10_counterexample :
    Reachable futurePauseSession ∧ ¬ resumeCovered futurePauseSession.events := by
  have h0 : Reachable (⟨50, 51, true, [], []⟩ : Session) := Reachable.new 60 (some 50)
  have h1 : Reachable (⟨50, 1001, true, [], [⟨1000, none, EventType.Pause⟩]⟩ : Session) :=
    Reachable.push _ 60 (some 1000) none EventType.Pause _ true h0 (by decide)
  have h2 : Reachable futurePauseSession :=
    Reachable.push _ 101 none none EventType.Resume _ true h1 (by decide)
  exact ⟨h2, by decide⟩

/-- C10 amended: in every reachable session the *kind* part of the claim
holds — each `Resume` is immediately preceded by a `Pause` (the log is well
paired) — but no timestamp inequality is guaranteed: the immediately
preceding `Pause` may carry a larger timestamp (see the counterexample), so
the `u64` subtraction in `pause_time` is not underflow-free in general. -/
theorem C10_resume_preceded_by_pause (s : Session) (h : Reachable s) :
    wellPaired s.events = true ∧
    ∀ i, i < s.events.length → isResume ((s.events.getD i default).ty) = true →
      0 < i ∧ isPause ((s.events.getD (i - 1) default).ty) = true := by
  have hwp := reachable_wellPaired s h
  refine ⟨hwp, fun i hi hres => ?_⟩
  rcases wpFrom_resume_pred s.events false hwp i hi hres with ⟨_, hb⟩ | hgood
  · exact absurd hb (by simp)
  · exact hgood

/-- Witness for the amended C10 at a freshly created session. -/
theorem C10_resume_preceded_by_pause_witness :
    Reachable (Session.new 5 none) ∧
    (wellPaired (Session.new 5 none).events = true ∧
     ∀ i, i < (Session.new 5 none).events.length →
       isResume (((Session.new 5 none).events.getD i default).ty) = true →
       0 < i ∧
         isPause (((Session.new 5 none).events.getD (i - 1) default).ty) = true) :=
  ⟨Reachable.new 5 none, C10_resume_preceded_by_pause (Session.new 5 none) (Reachable.new 5 none)⟩

/-- C1 counterexample: on a running, paused session, pushing `Pause` with a
*valid* explicit timestamp is rejected ("Already paused", returns `false`)
but `end` has already been advanced to `timestamp + 1`: the session state is
not left unchanged. -/
theorem C1_counterexample :
    Session.push_event 0 pausedAt10 (some 20) none EventType.Pause
      = some ({ pausedAt10 with «end» := 21 }, false) ∧
    ¬ pausedAt10.«end» = 21 := by
  decide

/-- C1 amended: on a running session every recoverable `push_event` failure
returns `false` and leaves the event log, `running`, `branches` and `start`
unchanged; only the invalid-explicit-timestamp failure additionally leaves
`end` unchanged, because the already-paused / not-paused checks run *after*
`end` has been updated (to `t + 1`, or to the clock value when the timestamp
is omitted). -/
theorem C1_failure_frame (s : Session) (now : Nat) (ts : Option Nat)
    (note : Option String) (hrun : s.is_running = true) :
    (∀ t, ts = some t → s.valid_ts t = false →
      ∀ ty, Session.push_event now s ts note ty = some (s, false)) ∧
    (tsOkP s ts → s.is_paused = true →
      ∃ s', Session.push_event now s ts note EventType.Pause = some (s', false) ∧
        s'.events = s.events ∧ s'.running = s.running ∧
        s'.branches = s.branches ∧ s'.start = s.start) ∧
    (tsOkP s ts → s.is_paused = false →
      ∃ s', Session.push_event now s ts note EventType.Resume = some (s', false) ∧
        s'.events = s.events ∧ s'.running = s.running ∧
        s'.branches = s.branches ∧ s'.start = s.start) := by
  refine ⟨?_, ?_, ?_⟩
  · rintro t rfl hv ty
    exact push_event_some_invalid now t s note ty hrun hv
  · intro htk hpau
    rcases ts with _ | t
    · refine ⟨{ s with «end» := now }, ?_, rfl, rfl, rfl, rfl⟩
      rw [push_event_none_ts now s note EventType.Pause hrun]
      exact push_arm_pause_paused now _ now note
        (by rw [is_paused_set_end]; exact hpau)
    · have hv := htk t rfl
      refine ⟨{ s with «end» := t + 1 }, ?_, rfl, rfl, rfl, rfl⟩
      rw [push_event_some_valid now t s note EventType.Pause hrun hv]
      exact push_arm_pause_paused now _ t note
        (by rw [is_paused_set_end]; exact hpau)
  · intro htk hpau
    rcases ts with _ | t
    · refine ⟨{ s with «end» := now }, ?_, rfl, rfl, rfl, rfl⟩
      rw [push_event_none_ts now s note EventType.Resume hrun]
      exact push_arm_resume_not now _ now note
        (by rw [is_paused_set_end]; exact hpau)
    · have hv := htk t rfl
      refine ⟨{ s with «end» := t + 1 }, ?_, rfl, rfl, rfl, rfl⟩
      rw [push_event_some_valid now t s note EventType.Resume hrun hv]
      exact push_arm_resume_not now _ t note
        (by rw [is_paused_set_end]; exact hpau)

/-- Witness for the amended C1: the already-paused failure at a concrete
paused session with a valid explicit timestamp. -/
theorem C1_failure_frame_witness :
    pausedAt10.is_running = true ∧
    (∃ s', Session.push_event 0 pausedAt10 (some 20) none EventType.Pause
        = some (s', false) ∧
      s'.events = pausedAt10.events ∧ s'.running = pausedAt10.running ∧
      s'.branches = pausedAt10.branches ∧ s'.start = pausedAt10.start) :=
  ⟨rfl, (C1_failure_frame pausedAt10 0 (some 20) none rfl).2.1
    (fun t ht => by injection ht with h; rw [← h]; decide) (by decide)⟩

/-- C2 counterexample: a clock-sourced successful push at clock value 10 on
a fresh session started at 10 sets `end` to the clock value itself — the
appended event's timestamp, not timestamp + 1 — and `end` then even fails
`end ≥ start + 1`. -/
theorem C2_counterexample :
    Session.push_event 10 startedAt10 none none EventType.Pause
      = some (⟨10, 10, true, [], [⟨10, none, EventType.Pause⟩]⟩, true) ∧
    ¬ (10 : Nat) = 10 + 1 ∧
    ¬ startedAt10.start + 1 ≤ 10 := by
  decide

/-- C2 amended: what `end` really is after the operations.  On a running
session, a successful non-`Commit` push with an explicit timestamp `t` sets
`end = t + 1` (the appended event's timestamp plus one), but with an omitted
timestamp `end` is set to the clock value itself — the appended event's
timestamp, not plus one — and no `end ≥ start + 1` bound survives (see the
counterexample).  A `Commit` push while paused leaves `end` at the clock
value (the synthetic `Resume` resets it); while not paused it behaves like
the other kinds.  `finalize` sets `end` to the finalize timestamp plus one. -/
theorem C2_end_tracking (s : Session) (now : Nat) (note : Option String)
    (hrun : s.is_running = true) :
    (∀ ty t s', (∀ h, ty ≠ EventType.Commit h) →
      Session.push_event now s (some t) note ty = some (s', true) →
      s'.«end» = t + 1) ∧
    (∀ ty s', (∀ h, ty ≠ EventType.Commit h) →
      Session.push_event now s none note ty = some (s', true) →
      s'.«end» = now) ∧
    (∀ hash ts s', s.is_paused = true → tsOkP s ts →
      Session.push_event now s ts note (EventType.Commit hash) = some (s', true) →
      s'.«end» = now) ∧
    (∀ hash t s', s.is_paused = false →
      Session.push_event now s (some t) note (EventType.Commit hash) = some (s', true) →
      s'.«end» = t + 1) ∧
    (∀ hash s', s.is_paused = false →
      Session.push_event now s none note (EventType.Commit hash) = some (s', true) →
      s'.«end» = now) ∧
    (∀ ts r s', Session.finalize now s ts = some s' →
      (ts = none → s'.«end» = now + 1) ∧ (ts = some r → s'.«end» = r + 1)) := by
  refine ⟨?_, ?_, ?_, ?_, ?_, ?_⟩
  · intro ty t s' hnc hp
    cases hv : s.valid_ts t with
    | false =>
      rw [push_event_some_invalid now t s note ty hrun hv] at hp
      exact nomatch (some_pair_inj hp).2
    | true =>
      rw [push_event_some_valid now t s note ty hrun hv] at hp
      exact push_arm_end_non_commit now _ t note ty s' true hnc hp
  · intro ty s' hnc hp
    rw [push_event_none_ts now s note ty hrun] at hp
    exact push_arm_end_non_commit now _ now note ty s' true hnc hp
  · intro hash ts s' hpau htk hp
    rcases ts with _ | t
    · rw [push_event_none_ts now s note (EventType.Commit hash) hrun] at hp
      rw [push_arm_commit_paused now _ now note hash
        (by rw [is_running_set_end]; exact hrun)
        (by rw [is_paused_set_end]; exact hpau)] at hp
      obtain ⟨rfl, _⟩ := some_pair_inj hp
      rfl
    · have hv := htk t rfl
      rw [push_event_some_valid now t s note (EventType.Commit hash) hrun hv] at hp
      rw [push_arm_commit_paused now _ t note hash
        (by rw [is_running_set_end]; exact hrun)
        (by rw [is_paused_set_end]; exact hpau)] at hp
      obtain ⟨rfl, _⟩ := some_pair_inj hp
      rfl
  · intro hash t s' hpau hp
    cases hv : s.valid_ts t with
    | false =>
      rw [push_event_some_invalid now t s note (EventType.Commit hash) hrun hv] at hp
      exact nomatch (some_pair_inj hp).2
    | true =>
      rw [push_event_some_valid now t s note (EventType.Commit hash) hrun hv] at hp
      rw [push_arm_commit_not_paused now _ t note hash
        (by rw [is_paused_set_end]; exact hpau)] at hp
      obtain ⟨rfl, _⟩ := some_pair_inj hp
      rfl
  · intro hash s' hpau hp
    rw [push_event_none_ts now s note (EventType.Commit hash) hrun] at hp
    rw [push_arm_commit_not_paused now _ now note hash
      (by rw [is_paused_set_end]; exact hpau)] at hp
    obtain ⟨rfl, _⟩ := some_pair_inj hp
    rfl
  · intro ts r s' hf
    constructor
    · rintro rfl
      rw [finalize_running_none now s hrun] at hf
      obtain rfl := Option.some.inj hf
      rfl
    · rintro rfl
      cases hv : s.valid_ts r with
      | false =>
        rw [finalize_some_invalid now r s hv] at hf
        exact Option.noConfusion hf
      | true =>
        rw [finalize_running_some now r s hrun hv] at hf
        obtain rfl := Option.some.inj hf
        rfl

/-- Witness for the amended C2: a successful explicit-timestamp push on a
fresh running session yields `end = 20 + 1`. -/
theorem C2_end_tracking_witness :
    startedAt10.is_running = true ∧
    (⟨10, 21, true, [], [⟨20, none, EventType.Pause⟩]⟩ : Session).«end» = 20 + 1 :=
  ⟨rfl, (C2_end_tracking startedAt10 10 none rfl).1 EventType.Pause 20
    ⟨10, 21, true, [], [⟨20, none, EventType.Pause⟩]⟩
    (fun h hc => EventType.noConfusion hc) (by decide)⟩

/-- C5 counterexample: on a running session paused at `t = 10`, a
clock-sourced push at clock value `10` (not greater than the last event's
timestamp) *does* mutate the log, appending a `Resume` at the same
timestamp and breaking strictly increasing order; no ordering check guards
clock-sourced pushes. -/
theorem C5_counterexample :
    Session.push_event 10 pausedAt10 none none EventType.Resume
      = some (⟨0, 10, true, [],
          [⟨10, none, EventType.Pause⟩, ⟨10, none, EventType.Resume⟩]⟩, true) ∧
    strictInc pausedAt10.events = true ∧
    strictInc [⟨10, none, EventType.Pause⟩, ⟨10, none, EventType.Resume⟩] = false := by
  decide

/-- C5 amended: ordering is enforced at insertion only for *explicit*
timestamps — an explicit timestamp failing the check never mutates anything
— while a clock-sourced push appends at the clock value unconditionally,
and a `Commit` is appended at the clock value even when an explicit
timestamp was validated.  Strict order is therefore preserved exactly when
the clock value beats the last event's timestamp wherever it is used (and a
`Commit` is not pushed while paused, which would append its synthetic
`Resume` and the `Commit` at the same clock reading). -/
theorem C5_ordering (s : Session) (now : Nat) (ts : Option Nat)
    (note : Option String) (ty : EventType)
    (hs : strictInc s.events = true) :
    (∀ t, ts = some t → s.valid_ts t = false →
      Session.push_event now s ts note ty = some (s, false)) ∧
    ((ts = none → s.valid_ts now = true) →
     (∀ h, ty = EventType.Commit h → s.valid_ts now = true ∧ s.is_paused = false) →
     ∀ s' b, Session.push_event now s ts note ty = some (s', b) →
       strictInc s'.events = true) := by
  constructor
  · rintro t rfl hv
    cases hrun : s.is_running with
    | true => exact push_event_some_invalid now t s note ty hrun hv
    | false => exact push_event_not_running now s (some t) note ty hrun
  · intro hnow hcom s' b hp
    cases hrun : s.is_running with
    | false =>
      rw [push_event_not_running now s ts note ty hrun] at hp
      obtain ⟨rfl, rfl⟩ := some_pair_inj hp
      exact hs
    | true =>
      rcases ts with _ | t
      · rw [push_event_none_ts now s note ty hrun] at hp
        exact push_arm_preserves_strictInc now { s with «end» := now } now note ty
          s' b hs
          (fun le hle => valid_ts_lt s now (hnow rfl) le hle)
          (fun h hc => ⟨fun le hle => valid_ts_lt s now (hcom h hc).1 le hle,
            by rw [is_paused_set_end]; exact (hcom h hc).2⟩)
          hp
      · cases hv : s.valid_ts t with
        | false =>
          rw [push_event_some_invalid now t s note ty hrun hv] at hp
          obtain ⟨rfl, rfl⟩ := some_pair_inj hp
          exact hs
        | true =>
          rw [push_event_some_valid now t s note ty hrun hv] at hp
          exact push_arm_preserves_strictInc now { s with «end» := t + 1 } t note ty
            s' b hs
            (fun le hle => valid_ts_lt s t hv le hle)
            (fun h hc => ⟨fun le hle => valid_ts_lt s now (hcom h hc).1 le hle,
              by rw [is_paused_set_end]; exact (hcom h hc).2⟩)
            hp

/-- Witness for the amended C5: a valid explicit `Pause` push keeps the log
strictly increasing. -/
theorem C5_ordering_witness :
    strictInc startedAt10.events = true ∧
    strictInc (⟨10, 21, true, [], [⟨20, none, EventType.Pause⟩]⟩ : Session).events
      = true :=
  ⟨by decide,
   (C5_ordering startedAt10 10 (some 20) none EventType.Pause (by decide)).2
     (fun h => nomatch h) (fun h hc => nomatch hc)
     ⟨10, 21, true, [], [⟨20, none, EventType.Pause⟩]⟩ true (by decide)⟩

/-- C6: on a running, paused session, a `Commit` push whose (optional)
explicit timestamp passes validation appends exactly one synthetic `Resume`
and then the `Commit`, both timestamped with the clock value — the event
timestamps ignore any explicit timestamp argument — and succeeds even with
no commit message (`note` is arbitrary, including `none`). -/
theorem C6_commit_while_paused (s : Session) (now : Nat) (ts : Option Nat)
    (note : Option String) (hash : String)
    (hrun : s.is_running = true) (hpau : s.is_paused = true) (htk : tsOkP s ts) :
    ∃ s', Session.push_event now s ts note (EventType.Commit hash)
        = some (s', true) ∧
      s'.events = s.events ++
        [⟨now, none, EventType.Resume⟩, ⟨now, note, EventType.Commit hash⟩] := by
  rcases ts with _ | t
  · rw [push_event_none_ts now s note (EventType.Commit hash) hrun,
      push_arm_commit_paused now _ now note hash
        (by rw [is_running_set_end]; exact hrun)
        (by rw [is_paused_set_end]; exact hpau)]
    refine ⟨_, rfl, ?_⟩
    show (s.events ++ [⟨now, none, EventType.Resume⟩])
        ++ [⟨now, note, EventType.Commit hash⟩] = _
    rw [List.append_assoc, List.singleton_append]
  · have hv := htk t rfl
    rw [push_event_some_valid now t s note (EventType.Commit hash) hrun hv,
      push_arm_commit_paused now _ t note hash
        (by rw [is_running_set_end]; exact hrun)
        (by rw [is_paused_set_end]; exact hpau)]
    refine ⟨_, rfl, ?_⟩
    show (s.events ++ [⟨now, none, EventType.Resume⟩])
        ++ [⟨now, note, EventType.Commit hash⟩] = _
    rw [List.append_assoc, List.singleton_append]

/-- Witness for C6: a `Commit` with no message pushed at clock 7 on the
paused session. -/
theorem C6_commit_while_paused_witness :
    pausedAt10.is_running = true ∧ pausedAt10.is_paused = true ∧
    (∃ s', Session.push_event 7 pausedAt10 none none (EventType.Commit "h")
        = some (s', true) ∧
      s'.events = pausedAt10.events ++
        [⟨7, none, EventType.Resume⟩, ⟨7, none, EventType.Commit "h"⟩]) :=
  ⟨rfl, rfl, C6_commit_while_paused pausedAt10 7 none none "h" rfl rfl
    (fun _ ht => nomatch ht)⟩

/-- C7: a `Note` push that passes the running and timestamp checks always
succeeds; while paused it appends the text to the open pause's note through
the `<br>` separator (creating it if absent) without changing the event
count, and while not paused it appends a standalone `Note` event at the
resolved timestamp. -/
theorem C7_note_merge (s : Session) (now : Nat) (ts : Option Nat) (txt : String)
    (hrun : s.is_running = true) (htk : tsOkP s ts) :
    (∀ le, s.events.getLast? = some le → s.is_paused = true →
      ∃ s', Session.push_event now s ts (some txt) EventType.Note
          = some (s', true) ∧
        s'.events = s.events.dropLast ++ [⟨le.timestamp, merge_note le.note txt, le.ty⟩] ∧
        s'.events.length = s.events.length) ∧
    (s.is_paused = false →
      ∃ s', Session.push_event now s ts (some txt) EventType.Note
          = some (s', true) ∧
        s'.events = s.events ++ [⟨resolved_ts now ts, some txt, EventType.Note⟩]) := by
  constructor
  · intro le hgl hpau
    rw [Session.is_paused, hgl] at hpau
    replace hpau : isPause le.ty = true := hpau
    have hne : s.events ≠ [] := by
      intro h
      rw [h] at hgl
      exact Option.noConfusion hgl
    rcases hn : le.note with _ | already
    · rcases ts with _ | t
      · rw [push_event_none_ts now s (some txt) EventType.Note hrun,
          push_arm_note_merge_fresh now { s with «end» := now } now le (some txt) hgl hpau hn]
        refine ⟨_, rfl, rfl, length_dropLast_concat s.events _ hne⟩
      · have hv := htk t rfl
        rw [push_event_some_valid now t s (some txt) EventType.Note hrun hv,
          push_arm_note_merge_fresh now { s with «end» := t + 1 } t le (some txt) hgl hpau hn]
        refine ⟨_, rfl, rfl, length_dropLast_concat s.events _ hne⟩
    · rcases ts with _ | t
      · rw [push_event_none_ts now s (some txt) EventType.Note hrun,
          push_arm_note_merge now { s with «end» := now } now le already txt hgl hpau hn]
        refine ⟨_, rfl, rfl, length_dropLast_concat s.events _ hne⟩
      · have hv := htk t rfl
        rw [push_event_some_valid now t s (some txt) EventType.Note hrun hv,
          push_arm_note_merge now { s with «end» := t + 1 } t le already txt hgl hpau hn]
        refine ⟨_, rfl, rfl, length_dropLast_concat s.events _ hne⟩
  · intro hpau
    rcases ts with _ | t
    · rw [push_event_none_ts now s (some txt) EventType.Note hrun,
        push_arm_note_not_paused now _ now (some txt)
          (by rw [is_paused_set_end]; exact hpau)]
      exact ⟨_, rfl, rfl⟩
    · have hv := htk t rfl
      rw [push_event_some_valid now t s (some txt) EventType.Note hrun hv,
        push_arm_note_not_paused now _ t (some txt)
          (by rw [is_paused_set_end]; exact hpau)]
      exact ⟨_, rfl, rfl⟩

/-- Witness for C7: merging the note `"b"` into the open pause that already
carries `"a"`. -/
theorem C7_note_merge_witness :
    pausedNoted.is_running = true ∧
    (∃ s', Session.push_event 7 pausedNoted none (some "b") EventType.Note
        = some (s', true) ∧
      s'.events = pausedNoted.events.dropLast ++
        [⟨10, merge_note (some "a") "b", EventType.Pause⟩] ∧
      s'.events.length = pausedNoted.events.length) :=
  ⟨rfl, (C7_note_merge pausedNoted 7 none "b" rfl (fun _ ht => nomatch ht)).1
    ⟨10, some "a", EventType.Pause⟩ rfl rfl⟩

/-- C8: `Session::finalize` on an already-finalized session is indeed a
no-op, but `Timesheet::end_session` is not — it first calls `update_end`,
which rewrites the finalized session's `end` from 21 back to
`last_event.timestamp + 1 = 11`, contradicting the claimed no-op (the
`update_end` call carries the source's own "This is always problematic -
rethink" TODO). -/
theorem C8_end_session_not_noop :
    Session.finalize 30 finalizedSession none = some finalizedSession ∧
    Timesheet.end_session 30 finalizedSheet none
      = some { finalizedSheet with
          sessions := [{ finalizedSession with «end» := 11 }] } ∧
    ¬ ({ finalizedSession with «end» := 11 } : Session).«end»
        = finalizedSession.«end» := by
  decide
